import Mathlib

/-!
Shallow embedding of the ackulator dimensional-analysis core (`src/env.rs`).

Conventions of the embedding:
* `f64` values are modelled as exact rationals (`ℚ`); the arithmetic the code
  performs on them (multiplication, integer powers, division) is embedded as
  the corresponding exact rational arithmetic.
* Fatal assertions (`assert!`, `unimplemented!`, arena lookups of invalid
  identities) are modelled by returning `none`; fallible operations therefore
  live in `Option`.
* The arena `ItemStorage<T>` is modelled as a `List T`, an identity being the
  index into the list (identities are issued consecutively by `add` and never
  reused, so a storage is exactly its list of items in insertion order).
* `u32` is modelled as `Nat` (no arithmetic overflowing 2^32 occurs here).
-/

namespace Ackulator

/-- Modelled from the spec: the `components` field of `CompositeUnit` /
`CompositeUnitClass` (crate code in `crate::unit`, not under `src/`) is a
finite mapping from identity to integer exponent.  We represent a mapping as
an association list; the mapping invariants (each key at most once, order
irrelevant) are captured by keeping the keys strictly sorted, which is the
canonical representative of such a mapping. -/
abbrev ExpMap := List (Nat × Int)

/-- Exponent of key `k` in the mapping (absent keys have exponent 0). -/
def lookup : ExpMap → Nat → Int
  | [], _ => 0
  | (k, v) :: rest, q => if q = k then v else lookup rest q

/-- Keys are strictly increasing: the canonical form of an order-irrelevant
finite mapping. -/
def SortedKeys (l : ExpMap) : Prop := l.Pairwise (fun a b => a.1 < b.1)

/-- Invariant from the spec: every stored exponent is nonzero. -/
def ZeroFree (l : ExpMap) : Prop := ∀ p ∈ l, p.2 ≠ 0

/-- A valid (normalized, zero-free) exponent map. -/
def Norm (l : ExpMap) : Prop := SortedKeys l ∧ ZeroFree l

instance (l : ExpMap) : Decidable (SortedKeys l) := List.instDecidablePairwise l

instance (l : ExpMap) : Decidable (ZeroFree l) := List.decidableBAll _ l

instance (l : ExpMap) : Decidable (Norm l) := instDecidableAnd

/-- Insert a single (key, exponent) contribution into a sorted exponent map:
add it to an existing entry with the same key (dropping the entry when the
sum is zero) or insert a new entry at its sorted position. -/
def insertAdd (k : Nat) (v : Int) : ExpMap → ExpMap
  | [] => [(k, v)]
  | (k', v') :: rest =>
    if k < k' then (k, v) :: (k', v') :: rest
    else if k' < k then (k', v') :: insertAdd k v rest
    else if v' + v = 0 then rest
    else (k', v' + v) :: rest

/-- Modelled from the spec: the group-multiplication of exponent maps
(`Mul for CompositeUnit(Class)` in `crate::unit`, not under `src/`): for every
key present in either map the exponents add, and zero results are dropped.
Implemented by inserting each of `b`'s contributions into `a`; on valid
(sorted, zero-free) mappings this realizes exactly that description. -/
def mergeAdd (a b : ExpMap) : ExpMap :=
  b.foldl (fun acc p => insertAdd p.1 p.2 acc) a

/-- Modelled from the spec: `unitless()` is the empty mapping. -/
def unitless : ExpMap := []

/-- Modelled from the spec: `multiply(a, b)` adds exponents per key and drops
zero entries. -/
def multiply (a b : ExpMap) : ExpMap := mergeAdd a b

/-- Pointwise negation of the exponents (used to express subtraction). -/
def negMap (b : ExpMap) : ExpMap := b.map (fun p => (p.1, -p.2))

/-- Modelled from the spec: `divide(a, b)` subtracts `b`'s exponents per key
and drops zero entries. -/
def divide (a b : ExpMap) : ExpMap := mergeAdd a (negMap b)

/-- `CompositeUnitClass`: exponent map keyed by unit-class identities. -/
abbrev CompositeUnitClass := ExpMap

/-- `CompositeUnit`: exponent map keyed by unit identities. -/
abbrev CompositeUnit := ExpMap

/-- Modelled from the spec: `UnitClass` (in `crate::unit`, not under `src/`)
is a named primitive dimension; the source accesses the name as field `.0` of
a tuple struct. -/
structure UnitClass where
  name : String
deriving DecidableEq

/-- Modelled from the spec: `Unit` (in `crate::unit`, not under `src/`)
declares its dimension `base_class` and the multiplicative `base_ratio`
converting one unit of itself into base-unit terms. -/
structure Unit where
  name : String
  base_class : CompositeUnitClass
  base_ratio : ℚ
deriving DecidableEq

/-- Modelled from the spec: `Scalar` (not under `src/`) stores a value in
base-unit terms together with its dimension, preferred display unit and
display precision. -/
structure Scalar where
  base_value : ℚ
  base_unit : CompositeUnitClass
  display_unit : CompositeUnit
  precision : Nat
deriving DecidableEq

/-- Modelled from the spec: `Scalar::new` just assembles the record. -/
def Scalar.new (base_value : ℚ) (base_unit : CompositeUnitClass)
    (display_unit : CompositeUnit) (precision : Nat) : Scalar :=
  { base_value := base_value, base_unit := base_unit,
    display_unit := display_unit, precision := precision }

/-- Modelled from the spec: `Value` is a tagged union over `Scalar` and the
deliberately unimplemented `Vector`. -/
inductive Value where
  | scalar (s : Scalar)
  | vector
deriving DecidableEq

/-- Modelled from the spec: a `Symbol` is an interned name; formatting uses
its debug form.  We model it as its name string. -/
abbrev Symbol := String

/-- Modelled from the spec: the debug form of a symbol name (Rust
`format!("{:?}", symbol)`), rendered as a quoted string. -/
def symbolDebug (s : Symbol) : String := "\"" ++ s ++ "\""

/-- Modelled from the spec: `Formula` is a tree whose leaves are values or
symbols and whose nodes are named function applications.  The function slot
(whose Rust type is external) is modelled by its `debug_name()` string. -/
inductive Formula where
  | value (v : Value)
  | plainFunction (fn : String) (args : List Formula)
  | symbol (s : Symbol)

/-- The `Environment` of `src/env.rs`: the two item storages (modelled as
lists indexed by identity) and the global symbol table. -/
structure Environment where
  unit_classes : List UnitClass
  units : List Unit
  global_symbols : List (Symbol × Value)
deriving DecidableEq

/-- Data-model invariant from the spec (§3): every registered unit's
`base_class` is a valid zero-free normalized mapping. -/
def Environment.WFUnits (env : Environment) : Prop :=
  ∀ un ∈ env.units, Norm un.base_class

instance (env : Environment) : Decidable env.WFUnits :=
  List.decidableBAll _ env.units

/-- Loop body of `base_unit_of` for a positive power: multiply the
accumulator by `base` once per iteration (`for _ in 0..power`). -/
def mulPow (acc base : ExpMap) : Nat → ExpMap
  | 0 => acc
  | n + 1 => mulPow (multiply acc base) base n

/-- Loop body of `base_unit_of` for a negative power: divide the accumulator
by `base` once per iteration (`for _ in 0..-power`). -/
def divPow (acc base : ExpMap) : Nat → ExpMap
  | 0 => acc
  | n + 1 => divPow (divide acc base) base n

/-- The component loop of `Environment::base_unit_of` (src/env.rs:99-115):
borrow the component's unit, assert its power is nonzero, then repeatedly
multiply (positive power) or divide (negative power) the accumulator by the
unit's `base_class`. -/
def base_unit_of_go (env : Environment) : ExpMap → CompositeUnitClass → Option CompositeUnitClass
  | [], acc => some acc
  | (uid, power) :: rest, acc =>
    match env.units[uid]? with
    | none => none
    | some un =>
      if power = 0 then none
      else if 0 < power then base_unit_of_go env rest (mulPow acc un.base_class power.toNat)
      else base_unit_of_go env rest (divPow acc un.base_class (-power).toNat)

/-- `Environment::base_unit_of` (src/env.rs:99-115). -/
def base_unit_of (env : Environment) (unit : CompositeUnit) : Option CompositeUnitClass :=
  base_unit_of_go env unit unitless

/-- The component loop of `Environment::base_conversion_ratio_of`
(src/env.rs:121-129): `ratio *= base_ratio.powi(power)`; note there is no
zero-power assertion in this loop. -/
def base_conversion_go (env : Environment) : ExpMap → ℚ → Option ℚ
  | [], r => some r
  | (uid, power) :: rest, r =>
    match env.units[uid]? with
    | none => none
    | some un => base_conversion_go env rest (r * un.base_ratio ^ power)

/-- `Environment::base_conversion_ratio_of` (src/env.rs:121-129). -/
def base_conversion_ratio_of (env : Environment) (unit : CompositeUnit) : Option ℚ :=
  base_conversion_go env unit 1

/-- `Environment::make_scalar` (src/env.rs:131-135). -/
def make_scalar (env : Environment) (value : ℚ) (unit : CompositeUnit)
    (precision : Nat) : Option Scalar := do
  let base_unit ← base_unit_of env unit
  let r ← base_conversion_ratio_of env unit
  pure (Scalar.new (value * r) base_unit unit precision)

/-- `n` spaces (Rust `format!("{0:>1$}", "", n)`). -/
def spaces (n : Nat) : String := String.mk (List.replicate n ' ')

/-- `n` zero digits, used to left-pad fractional parts. -/
def zeros (n : Nat) : String := String.mk (List.replicate n '0')

/-- Fuel-driven decimal logarithm: `log10fuel f n = ⌊log10 n⌋` for `1 ≤ n`
whenever `n ≤ f` (structural recursion so that it evaluates in the kernel). -/
def log10fuel : Nat → Nat → Nat
  | 0, _ => 0
  | f + 1, n => if n < 10 then 0 else log10fuel f (n / 10) + 1

/-- Modelled from the spec: scientific-notation rendering of a positive value
`p / q` with `k` fractional digits (the Rust standard library's
`{:.k$e}` float formatting, which is not part of this repository).  The
exponent is `⌊log10 (p/q)⌋`, the mantissa digits are obtained by rounding
`p/q · 10^(k-e)` to the nearest integer, and a mantissa that rounds up to 10
shifts the exponent by one. -/
def fmtSciNat (p q k : Nat) : String :=
  let dp := log10fuel p p
  let dq := log10fuel q q
  let d : Int := (dp : Int) - (dq : Int)
  let le10d := if 0 ≤ d then 10 ^ d.toNat * q ≤ p else q ≤ p * 10 ^ (-d).toNat
  let e : Int := if le10d then d else d - 1
  let ke : Int := (k : Int) - e
  let pq : Nat × Nat := if 0 ≤ ke then (p * 10 ^ ke.toNat, q) else (p, q * 10 ^ (-ke).toNat)
  let m : Nat := (2 * pq.1 + pq.2) / (2 * pq.2)
  let pair : Int × Nat := if 10 ^ (k + 1) ≤ m then (e + 1, m / 10) else (e, m)
  let ip := pair.2 / 10 ^ k
  let fr := pair.2 % 10 ^ k
  let frs := toString fr
  toString ip ++ (if k = 0 then "" else "." ++ zeros (k - frs.length) ++ frs)
    ++ "e" ++ toString pair.1

/-- Modelled from the spec: scientific notation with `k` fractional digits
for an arbitrary rational (zero renders with a zero exponent, negative values
with a leading minus sign). -/
def fmtSci (x : ℚ) (k : Nat) : String :=
  if x = 0 then "0" ++ (if k = 0 then "" else "." ++ zeros k) ++ "e0"
  else if x < 0 then "-" ++ fmtSciNat (-x).num.natAbs (-x).den k
  else fmtSciNat x.num.natAbs x.den k

/-- The component loop of `Environment::format_base_unit` (src/env.rs:15-27):
assert the power is nonzero, then append `Name^power` to the numerator
(positive power) or `Name^-power` to the denominator (negative power). -/
def format_base_unit_go (env : Environment) : ExpMap → String → String → Option String
  | [], num, den => some (num ++ " / " ++ den)
  | (cid, power) :: rest, num, den =>
    if power = 0 then none
    else
      match env.unit_classes[cid]? with
      | none => none
      | some uc =>
        if 0 < power then
          format_base_unit_go env rest (num ++ uc.name ++ "^" ++ toString power) den
        else
          format_base_unit_go env rest num (den ++ uc.name ++ "^" ++ toString (-power))

/-- `Environment::format_base_unit` (src/env.rs:15-27). -/
def format_base_unit (env : Environment) (base_unit : CompositeUnitClass) : Option String :=
  format_base_unit_go env base_unit "" ""

/-- The component loop of `Environment::format_unit` (src/env.rs:29-41);
identical to `format_base_unit_go` but over unit names. -/
def format_unit_go (env : Environment) : ExpMap → String → String → Option String
  | [], num, den => some (num ++ " / " ++ den)
  | (uid, power) :: rest, num, den =>
    if power = 0 then none
    else
      match env.units[uid]? with
      | none => none
      | some un =>
        if 0 < power then
          format_unit_go env rest (num ++ un.name ++ "^" ++ toString power) den
        else
          format_unit_go env rest num (den ++ un.name ++ "^" ++ toString (-power))

/-- `Environment::format_unit` (src/env.rs:29-41). -/
def format_unit (env : Environment) (unit : CompositeUnit) : Option String :=
  format_unit_go env unit "" ""

/-- `Environment::format_scalar_detailed` (src/env.rs:43-54): asserts
`precision > 0` and renders
`"<value/ratio> <display unit> (<value> <base unit>)"`, both numbers in
scientific notation with `precision - 1` fractional digits. -/
def format_scalar_detailed (env : Environment) (scalar : Scalar) : Option String := do
  let ratio ← base_conversion_ratio_of env scalar.display_unit
  if scalar.precision = 0 then none
  else do
    let us ← format_unit env scalar.display_unit
    let bs ← format_base_unit env scalar.base_unit
    pure (fmtSci (scalar.base_value / ratio) (scalar.precision - 1) ++ " " ++ us
      ++ " (" ++ fmtSci scalar.base_value (scalar.precision - 1) ++ " " ++ bs ++ ")")

/-- `Environment::format_value_detailed` (src/env.rs:56-61); the `Vector`
variant is `unimplemented!()`, i.e. fatal. -/
def format_value_detailed (env : Environment) (value : Value) : Option String :=
  match value with
  | .scalar s => format_scalar_detailed env s
  | .vector => none

mutual

/-- `Environment::format_formula_detailed_impl` (src/env.rs:67-81). -/
def format_formula_detailed_impl (env : Environment) : Formula → Nat → Option String
  | .value v, _ => format_value_detailed env v
  | .plainFunction fn args, indent =>
    (format_args env indent args).map
      (fun body => fn ++ "[\n" ++ body ++ spaces indent ++ "]")
  | .symbol s, _ => some (symbolDebug s)

/-- The argument loop of `format_formula_detailed_impl` (src/env.rs:72-75):
each argument is recursively formatted at `indent + 4` and emitted as
`"<indent+4 spaces><argument>,\n"`. -/
def format_args (env : Environment) (indent : Nat) : List Formula → Option String
  | [] => some ""
  | a :: rest => do
    let s ← format_formula_detailed_impl env a (indent + 4)
    let r ← format_args env indent rest
    pure (spaces (indent + 4) ++ s ++ ",\n" ++ r)

end

/-- `Environment::format_formula_detailed` (src/env.rs:63-65). -/
def format_formula_detailed (env : Environment) (formula : Formula) : Option String :=
  format_formula_detailed_impl env formula 0

/-- Modelled from the spec: raising a `base_class` to an integer power by
repeated group multiplication (positive power: multiply that many times;
negative power: divide that many times), starting from `unitless()`. -/
def gpowSpec (base : ExpMap) (power : Int) : ExpMap :=
  if 0 < power then mulPow unitless base power.toNat
  else divPow unitless base (-power).toNat

/-- Modelled from the spec (§4.3, for comparison with the source embedding
`base_unit_of`): fold, over the components, of the component unit's
`base_class` raised to the component's power, combined with group
multiplication starting from `unitless()`; fails fatally on an unregistered
unit identity or a zero power. -/
def base_unit_of_spec (env : Environment) : CompositeUnit → Option CompositeUnitClass
  | [] => some unitless
  | (uid, power) :: rest =>
    match env.units[uid]? with
    | none => none
    | some un =>
      if power = 0 then none
      else (base_unit_of_spec env rest).map
        (fun r => multiply (gpowSpec un.base_class power) r)

/-- Modelled from the spec (§4.3, for comparison with the source embedding
`base_conversion_ratio_of`): the product, over all components, of
`base_ratio ^ power`, starting from 1. -/
def conversion_product_spec (env : Environment) : CompositeUnit → ℚ
  | [] => 1
  | (uid, power) :: rest =>
    (match env.units[uid]? with
     | none => 1
     | some un => un.base_ratio ^ power) * conversion_product_spec env rest

/-- Contribution of a unit identity's `base_class` at class key `c` (0 for an
unregistered identity); used to state lookup characterizations. -/
def gval (env : Environment) (uid c : Nat) : Int :=
  match env.units[uid]? with
  | none => 0
  | some un => lookup un.base_class c

/-- Sum, over the components of a composite unit, of the component's power
times its unit's `base_class` exponent at class key `c`. -/
def sumContrib (env : Environment) : ExpMap → Nat → Int
  | [], _ => 0
  | (uid, power) :: rest, c => power * gval env uid c + sumContrib env rest c

/-- Test environment of §8 scenario 1: unit class "Length" (identity 0) and
unit "Meter" (identity 0) with `base_class` Length^1 and `base_ratio` 1. -/
def env0 : Environment :=
  { unit_classes := [{ name := "Length" }],
    units := [{ name := "Meter", base_class := [(0, 1)], base_ratio := 1 }],
    global_symbols := [] }

/-- Test environment with a second dimension: classes Length (0) and Time (1),
units Meter (0) and Second (1), both with ratio 1. -/
def envW : Environment :=
  { unit_classes := [{ name := "Length" }, { name := "Time" }],
    units := [{ name := "Meter", base_class := [(0, 1)], base_ratio := 1 },
              { name := "Second", base_class := [(1, 1)], base_ratio := 1 }],
    global_symbols := [] }

/-- The scalar produced by `make_scalar env0 5 Meter^1 3`. -/
def s0 : Scalar :=
  { base_value := 5, base_unit := [(0, 1)], display_unit := [(0, 1)], precision := 3 }

/-! ### Lemmas about the exponent-map algebra -/

theorem lookup_zero_of_forall_lt (l : ExpMap) (k : Nat) (h : ∀ p ∈ l, k < p.1) :
    lookup l k = 0 := by
  induction l with
  | nil => rfl
  | cons p rest ih =>
    have hk : k < p.1 := h p (by simp)
    simp only [lookup, if_neg (Nat.ne_of_lt hk)]
    exact ih (fun q hq => h q (by simp [hq]))

theorem sortedKeys_cons {k : Nat} {v : Int} {t : ExpMap} :
    SortedKeys ((k, v) :: t) ↔ (∀ p ∈ t, k < p.1) ∧ SortedKeys t := by
  simp [SortedKeys, List.pairwise_cons]

theorem lookup_insertAdd (k : Nat) (v : Int) (acc : ExpMap) (hacc : SortedKeys acc)
    (q : Nat) :
    lookup (insertAdd k v acc) q = lookup acc q + (if q = k then v else 0) := by
  induction acc with
  | nil => by_cases hq : q = k <;> simp [insertAdd, lookup, hq]
  | cons p rest ih =>
    obtain ⟨k', v'⟩ := p
    obtain ⟨hhead, htail⟩ := sortedKeys_cons.mp hacc
    by_cases h1 : k < k'
    · simp only [insertAdd, if_pos h1]
      by_cases hq : q = k
      · subst hq
        have h2 : lookup rest q = 0 :=
          lookup_zero_of_forall_lt _ _ (fun p hp => lt_trans h1 (hhead p hp))
        simp [lookup, Nat.ne_of_lt h1, h2]
      · simp [lookup, hq]
    · by_cases h2 : k' < k
      · simp only [insertAdd, if_neg h1, if_pos h2]
        by_cases hq : q = k'
        · subst hq
          have : ¬ q = k := Nat.ne_of_lt h2
          simp [lookup, this]
        · simp [lookup, hq, ih htail]
      · have hkk : k = k' := by omega
        subst hkk
        by_cases h3 : v' + v = 0
        · simp only [insertAdd, if_neg h1, if_neg h2, if_pos h3]
          by_cases hq : q = k
          · subst hq
            have h4 : lookup rest q = 0 := lookup_zero_of_forall_lt _ _ hhead
            simp [lookup, h4]
            omega
          · simp [lookup, hq]
        · simp only [insertAdd, if_neg h1, if_neg h2, if_neg h3]
          by_cases hq : q = k
          · subst hq; simp [lookup]
          · simp [lookup, hq]

theorem mem_insertAdd {k : Nat} {v : Int} {acc : ExpMap} {p : Nat × Int}
    (hp : p ∈ insertAdd k v acc) : p.1 = k ∨ ∃ q ∈ acc, p.1 = q.1 := by
  induction acc with
  | nil => simp [insertAdd] at hp; simp [hp]
  | cons a rest ih =>
    obtain ⟨k', v'⟩ := a
    by_cases h1 : k < k'
    · simp only [insertAdd, if_pos h1, List.mem_cons] at hp
      rcases hp with hp | hp | hp
      · left; simp [hp]
      · right; exact ⟨(k', v'), by simp, by simp [hp]⟩
      · right; exact ⟨p, by simp [hp], rfl⟩
    · by_cases h2 : k' < k
      · simp only [insertAdd, if_neg h1, if_pos h2, List.mem_cons] at hp
        rcases hp with hp | hp
        · right; exact ⟨(k', v'), by simp, by simp [hp]⟩
        · rcases ih hp with h | ⟨q, hq, hq1⟩
          · left; exact h
          · right; exact ⟨q, by simp [hq], hq1⟩
      · have hkk : k = k' := by omega
        subst hkk
        by_cases h3 : v' + v = 0
        · simp only [insertAdd, if_neg h1, if_neg h2, if_pos h3] at hp
          right; exact ⟨p, by simp [hp], rfl⟩
        · simp only [insertAdd, if_neg h1, if_neg h2, if_neg h3, List.mem_cons] at hp
          rcases hp with hp | hp
          · left; simp [hp]
          · right; exact ⟨p, by simp [hp], rfl⟩

theorem sortedKeys_insertAdd (k : Nat) (v : Int) (acc : ExpMap)
    (hacc : SortedKeys acc) : SortedKeys (insertAdd k v acc) := by
  induction acc with
  | nil => simp [insertAdd, SortedKeys]
  | cons p rest ih =>
    obtain ⟨k', v'⟩ := p
    obtain ⟨hhead, htail⟩ := sortedKeys_cons.mp hacc
    by_cases h1 : k < k'
    · simp only [insertAdd, if_pos h1]
      refine sortedKeys_cons.mpr ⟨?_, hacc⟩
      intro p hp
      rcases List.mem_cons.mp hp with hp | hp
      · simp [hp, h1]
      · exact lt_trans h1 (hhead p hp)
    · by_cases h2 : k' < k
      · simp only [insertAdd, if_neg h1, if_pos h2]
        refine sortedKeys_cons.mpr ⟨?_, ih htail⟩
        intro p hp
        rcases mem_insertAdd hp with h | ⟨q, hq, hq1⟩
        · omega
        · rw [hq1]; exact hhead q hq
      · have hkk : k = k' := by omega
        subst hkk
        by_cases h3 : v' + v = 0
        · simp only [insertAdd, if_neg h1, if_neg h2, if_pos h3]
          exact htail
        · simp only [insertAdd, if_neg h1, if_neg h2, if_neg h3]
          exact sortedKeys_cons.mpr ⟨hhead, htail⟩

theorem zeroFree_insertAdd (k : Nat) (v : Int) (acc : ExpMap)
    (hacc : ZeroFree acc) (hv : v ≠ 0) : ZeroFree (insertAdd k v acc) := by
  induction acc with
  | nil => intro p hp; simp [insertAdd] at hp; simp [hp, hv]
  | cons a rest ih =>
    obtain ⟨k', v'⟩ := a
    have hhead : v' ≠ 0 := hacc (k', v') (by simp)
    have htail : ZeroFree rest := fun p hp => hacc p (by simp [hp])
    by_cases h1 : k < k'
    · simp only [insertAdd, if_pos h1]
      intro p hp
      simp only [List.mem_cons] at hp
      rcases hp with hp | hp | hp
      · simp [hp, hv]
      · simp [hp, hhead]
      · exact hacc p (by simp [hp])
    · by_cases h2 : k' < k
      · simp only [insertAdd, if_neg h1, if_pos h2]
        intro p hp
        rcases List.mem_cons.mp hp with hp | hp
        · simp [hp, hhead]
        · exact ih htail p hp
      · have hkk : k = k' := by omega
        subst hkk
        by_cases h3 : v' + v = 0
        · simp only [insertAdd, if_neg h1, if_neg h2, if_pos h3]
          exact htail
        · simp only [insertAdd, if_neg h1, if_neg h2, if_neg h3]
          intro p hp
          rcases List.mem_cons.mp hp with hp | hp
          · simp [hp, h3]
          · exact htail p hp

theorem mergeAdd_cons (a : ExpMap) (p : Nat × Int) (b : ExpMap) :
    mergeAdd a (p :: b) = mergeAdd (insertAdd p.1 p.2 a) b := rfl

theorem mergeAdd_nil_right (a : ExpMap) : mergeAdd a [] = a := rfl

theorem sortedKeys_mergeAdd (a b : ExpMap) (ha : SortedKeys a) :
    SortedKeys (mergeAdd a b) := by
  induction b generalizing a with
  | nil => exact ha
  | cons p rest ih =>
    rw [mergeAdd_cons]
    exact ih _ (sortedKeys_insertAdd _ _ _ ha)

theorem zeroFree_mergeAdd (a b : ExpMap) (ha : ZeroFree a) (hb : ZeroFree b) :
    ZeroFree (mergeAdd a b) := by
  induction b generalizing a with
  | nil => exact ha
  | cons p rest ih =>
    rw [mergeAdd_cons]
    exact ih _ (zeroFree_insertAdd _ _ _ ha (hb p (by simp)))
      (fun q hq => hb q (by simp [hq]))

theorem norm_mergeAdd (a b : ExpMap) (ha : Norm a) (hb : Norm b) :
    Norm (mergeAdd a b) :=
  ⟨sortedKeys_mergeAdd a b ha.1, zeroFree_mergeAdd a b ha.2 hb.2⟩

theorem mem_mergeAdd {a b : ExpMap} {p : Nat × Int} (hp : p ∈ mergeAdd a b) :
    (∃ q ∈ a, p.1 = q.1) ∨ ∃ q ∈ b, p.1 = q.1 := by
  induction b generalizing a with
  | nil => exact Or.inl ⟨p, hp, rfl⟩
  | cons x rest ih =>
    rw [mergeAdd_cons] at hp
    rcases ih hp with ⟨q, hq, hq1⟩ | ⟨q, hq, hq1⟩
    · rcases mem_insertAdd hq with h | ⟨r, hr, hr1⟩
      · exact Or.inr ⟨x, by simp, by rw [hq1]; exact h⟩
      · exact Or.inl ⟨r, hr, by rw [hq1]; exact hr1⟩
    · exact Or.inr ⟨q, by simp [hq], hq1⟩

theorem lookup_mergeAdd (a b : ExpMap) (ha : SortedKeys a) (hb : SortedKeys b)
    (q : Nat) : lookup (mergeAdd a b) q = lookup a q + lookup b q := by
  induction b generalizing a with
  | nil => simp [mergeAdd_nil_right, lookup]
  | cons x rest ih =>
    obtain ⟨k, v⟩ := x
    obtain ⟨hhead, htail⟩ := sortedKeys_cons.mp hb
    rw [mergeAdd_cons]
    rw [ih _ (sortedKeys_insertAdd _ _ _ ha) htail]
    rw [lookup_insertAdd _ _ _ ha]
    by_cases hq : q = k
    · subst hq
      have h0 : lookup rest q = 0 := lookup_zero_of_forall_lt _ _ hhead
      simp [lookup, h0]
    · simp [lookup, hq]

theorem lookup_ext (a b : ExpMap) (ha : Norm a) (hb : Norm b)
    (h : ∀ q, lookup a q = lookup b q) : a = b := by
  induction a generalizing b with
  | nil =>
    cases b with
    | nil => rfl
    | cons p rest =>
      obtain ⟨k, v⟩ := p
      have := h k
      simp [lookup] at this
      exact absurd this.symm (hb.2 (k, v) (by simp))
  | cons p rest ih =>
    obtain ⟨k1, v1⟩ := p
    obtain ⟨hh1, ht1⟩ := sortedKeys_cons.mp ha.1
    have hz1 : v1 ≠ 0 := ha.2 (k1, v1) (by simp)
    cases b with
    | nil =>
      have := h k1
      simp [lookup] at this
      exact absurd this hz1
    | cons x brest =>
      obtain ⟨k2, v2⟩ := x
      obtain ⟨hh2, ht2⟩ := sortedKeys_cons.mp hb.1
      have hz2 : v2 ≠ 0 := hb.2 (k2, v2) (by simp)
      by_cases h1 : k1 < k2
      · exfalso
        have := h k1
        have hr : lookup brest k1 = 0 :=
          lookup_zero_of_forall_lt _ _ (fun p hp => lt_trans h1 (hh2 p hp))
        simp [lookup, Nat.ne_of_lt h1, hr] at this
        exact hz1 this
      · by_cases h2 : k2 < k1
        · exfalso
          have := h k2
          have hr : lookup rest k2 = 0 :=
            lookup_zero_of_forall_lt _ _ (fun p hp => lt_trans h2 (hh1 p hp))
          simp [lookup, Nat.ne_of_lt h2, hr] at this
          exact hz2 this.symm
        · have hkk : k1 = k2 := by omega
          subst hkk
          have hv : v1 = v2 := by have := h k1; simpa [lookup] using this
          subst hv
          have htl : rest = brest := by
            refine ih brest ⟨ht1, fun p hp => ha.2 p (by simp [hp])⟩
              ⟨ht2, fun p hp => hb.2 p (by simp [hp])⟩ ?_
            intro q
            by_cases hq : q = k1
            · subst hq
              rw [lookup_zero_of_forall_lt _ _ hh1, lookup_zero_of_forall_lt _ _ hh2]
            · have := h q
              simpa [lookup, hq] using this
          rw [htl]

theorem lookup_negMap (b : ExpMap) (q : Nat) : lookup (negMap b) q = - lookup b q := by
  induction b with
  | nil => simp [negMap, lookup]
  | cons p rest ih =>
    obtain ⟨k, v⟩ := p
    by_cases hq : q = k
    · simp [negMap, lookup, hq]
    · simp only [negMap, List.map_cons, lookup, if_neg hq]
      simpa [negMap] using ih

theorem sortedKeys_negMap (b : ExpMap) (hb : SortedKeys b) : SortedKeys (negMap b) := by
  simpa [SortedKeys, negMap, List.pairwise_map] using hb

theorem zeroFree_negMap (b : ExpMap) (hb : ZeroFree b) : ZeroFree (negMap b) := by
  intro p hp
  simp only [negMap, List.mem_map] at hp
  obtain ⟨q, hq, rfl⟩ := hp
  simpa using hb q hq

theorem norm_negMap (b : ExpMap) (hb : Norm b) : Norm (negMap b) :=
  ⟨sortedKeys_negMap b hb.1, zeroFree_negMap b hb.2⟩

theorem norm_unitless : Norm unitless := by
  constructor <;> simp [unitless, SortedKeys, ZeroFree]

theorem mergeAdd_unitless_left (b : ExpMap) (hb : Norm b) : mergeAdd unitless b = b := by
  refine lookup_ext _ _ (norm_mergeAdd _ _ norm_unitless hb) hb ?_
  intro q
  rw [lookup_mergeAdd _ _ norm_unitless.1 hb.1]
  simp [unitless, lookup]

theorem norm_divide (a b : ExpMap) (ha : Norm a) (hb : Norm b) : Norm (divide a b) :=
  norm_mergeAdd _ _ ha (norm_negMap _ hb)

theorem lookup_divide (a b : ExpMap) (ha : SortedKeys a) (hb : SortedKeys b)
    (q : Nat) : lookup (divide a b) q = lookup a q - lookup b q := by
  rw [divide, lookup_mergeAdd _ _ ha (sortedKeys_negMap _ hb), lookup_negMap]
  ring

theorem norm_mulPow (acc base : ExpMap) (n : Nat) (hacc : Norm acc)
    (hbase : Norm base) : Norm (mulPow acc base n) := by
  induction n generalizing acc with
  | zero => exact hacc
  | succ n ih =>
    simp only [mulPow]
    exact ih _ (norm_mergeAdd _ _ hacc hbase)

theorem lookup_mulPow (acc base : ExpMap) (n : Nat) (hacc : Norm acc)
    (hbase : Norm base) (q : Nat) :
    lookup (mulPow acc base n) q = lookup acc q + n * lookup base q := by
  induction n generalizing acc with
  | zero => simp [mulPow]
  | succ n ih =>
    simp only [mulPow, multiply]
    rw [ih _ (norm_mergeAdd _ _ hacc hbase)]
    rw [lookup_mergeAdd _ _ hacc.1 hbase.1]
    push_cast
    ring

theorem norm_divPow (acc base : ExpMap) (n : Nat) (hacc : Norm acc)
    (hbase : Norm base) : Norm (divPow acc base n) := by
  induction n generalizing acc with
  | zero => exact hacc
  | succ n ih =>
    simp only [divPow]
    exact ih _ (norm_divide _ _ hacc hbase)

theorem lookup_divPow (acc base : ExpMap) (n : Nat) (hacc : Norm acc)
    (hbase : Norm base) (q : Nat) :
    lookup (divPow acc base n) q = lookup acc q - n * lookup base q := by
  induction n generalizing acc with
  | zero => simp [divPow]
  | succ n ih =>
    simp only [divPow]
    rw [ih _ (norm_divide _ _ hacc hbase)]
    rw [lookup_divide _ _ hacc.1 hbase.1]
    push_cast
    ring

theorem norm_gpowSpec (base : ExpMap) (power : Int) (hbase : Norm base) :
    Norm (gpowSpec base power) := by
  rw [gpowSpec]
  by_cases h : 0 < power
  · rw [if_pos h]; exact norm_mulPow _ _ _ norm_unitless hbase
  · rw [if_neg h]; exact norm_divPow _ _ _ norm_unitless hbase

theorem lookup_gpowSpec (base : ExpMap) (power : Int) (hbase : Norm base)
    (q : Nat) : lookup (gpowSpec base power) q = power * lookup base q := by
  rw [gpowSpec]
  by_cases h : 0 < power
  · rw [if_pos h, lookup_mulPow _ _ _ norm_unitless hbase,
      Int.toNat_of_nonneg (le_of_lt h)]
    simp [unitless, lookup]
  · rw [if_neg h, lookup_divPow _ _ _ norm_unitless hbase,
      Int.toNat_of_nonneg (by omega : (0:Int) ≤ -power)]
    simp [unitless, lookup]

theorem sumContrib_insertAdd (env : Environment) (k : Nat) (v : Int) (a : ExpMap)
    (c : Nat) : sumContrib env (insertAdd k v a) c = sumContrib env a c + v * gval env k c := by
  induction a with
  | nil => simp [insertAdd, sumContrib]
  | cons p rest ih =>
    obtain ⟨k', v'⟩ := p
    by_cases h1 : k < k'
    · simp only [insertAdd, if_pos h1, sumContrib]
      ring
    · by_cases h2 : k' < k
      · simp only [insertAdd, if_neg h1, if_pos h2, sumContrib, ih]
        ring
      · have hkk : k = k' := by omega
        subst hkk
        by_cases h3 : v' + v = 0
        · simp only [insertAdd, if_neg h1, if_neg h2, if_pos h3, sumContrib]
          linear_combination (gval env k c) * h3.symm
        · simp only [insertAdd, if_neg h1, if_neg h2, if_neg h3, sumContrib]
          ring

theorem sumContrib_mergeAdd (env : Environment) (a b : ExpMap) (c : Nat) :
    sumContrib env (mergeAdd a b) c = sumContrib env a c + sumContrib env b c := by
  induction b generalizing a with
  | nil => simp [mergeAdd_nil_right, sumContrib]
  | cons p rest ih =>
    obtain ⟨k, v⟩ := p
    rw [mergeAdd_cons, ih, sumContrib_insertAdd]
    simp only [sumContrib]
    ring

theorem sumContrib_negMap (env : Environment) (l : ExpMap) (c : Nat) :
    sumContrib env (negMap l) c = - sumContrib env l c := by
  induction l with
  | nil => simp [negMap, sumContrib]
  | cons p rest ih =>
    obtain ⟨k, v⟩ := p
    simp only [negMap, List.map_cons, sumContrib] at ih ⊢
    rw [ih]
    ring

theorem getElem_some_of_lt (env : Environment) (uid : Nat)
    (h : uid < env.units.length) :
    ∃ un, env.units[uid]? = some un ∧ un ∈ env.units :=
  ⟨env.units[uid], List.getElem?_eq_getElem h, List.getElem_mem h⟩

theorem base_unit_of_go_char (env : Environment) (hWF : env.WFUnits) (l : ExpMap)
    (hl : ∀ p ∈ l, p.1 < env.units.length ∧ p.2 ≠ 0) :
    ∀ acc, Norm acc → ∃ m, base_unit_of_go env l acc = some m ∧ Norm m ∧
      ∀ c, lookup m c = lookup acc c + sumContrib env l c := by
  induction l with
  | nil =>
    intro acc hacc
    exact ⟨acc, rfl, hacc, by simp [sumContrib, base_unit_of_go]⟩
  | cons p rest ih =>
    intro acc hacc
    obtain ⟨uid, power⟩ := p
    have hreg : uid < env.units.length := (hl (uid, power) (by simp)).1
    have hpz : power ≠ 0 := (hl (uid, power) (by simp)).2
    obtain ⟨un, hun, hmem⟩ := getElem_some_of_lt env uid hreg
    have hbc : Norm un.base_class := hWF un hmem
    have htl : ∀ p ∈ rest, p.1 < env.units.length ∧ p.2 ≠ 0 :=
      fun p hp => hl p (by simp [hp])
    by_cases hpos : 0 < power
    · have hacc2 : Norm (mulPow acc un.base_class power.toNat) :=
        norm_mulPow _ _ _ hacc hbc
      obtain ⟨m, hm, hnm, hlook⟩ := ih htl _ hacc2
      refine ⟨m, ?_, hnm, ?_⟩
      · simp only [base_unit_of_go, hun, if_neg hpz, if_pos hpos]
        exact hm
      · intro c
        rw [hlook c, lookup_mulPow _ _ _ hacc hbc,
          Int.toNat_of_nonneg (le_of_lt hpos)]
        simp only [sumContrib, gval, hun]
        ring
    · have hacc2 : Norm (divPow acc un.base_class (-power).toNat) :=
        norm_divPow _ _ _ hacc hbc
      obtain ⟨m, hm, hnm, hlook⟩ := ih htl _ hacc2
      refine ⟨m, ?_, hnm, ?_⟩
      · simp only [base_unit_of_go, hun, if_neg hpz, if_neg hpos]
        exact hm
      · intro c
        rw [hlook c, lookup_divPow _ _ _ hacc hbc,
          Int.toNat_of_nonneg (by omega : (0:Int) ≤ -power)]
        simp only [sumContrib, gval, hun]
        ring

theorem base_unit_of_char (env : Environment) (hWF : env.WFUnits)
    (u : CompositeUnit) (hu : ∀ p ∈ u, p.1 < env.units.length ∧ p.2 ≠ 0) :
    ∃ m, base_unit_of env u = some m ∧ Norm m ∧
      ∀ c, lookup m c = sumContrib env u c := by
  obtain ⟨m, hm, hnm, hlook⟩ :=
    base_unit_of_go_char env hWF u hu unitless norm_unitless
  exact ⟨m, hm, hnm, fun c => by simpa [unitless, lookup] using hlook c⟩

theorem base_unit_of_go_zero (env : Environment) (l : ExpMap) (uid : Nat)
    (h : (uid, (0 : Int)) ∈ l) : ∀ acc, base_unit_of_go env l acc = none := by
  induction l with
  | nil => simp at h
  | cons p rest ih =>
    intro acc
    obtain ⟨k, v⟩ := p
    rcases List.mem_cons.mp h with h | h
    · obtain ⟨rfl, rfl⟩ : uid = k ∧ (0 : Int) = v := Prod.mk.injEq .. ▸ h
      simp only [base_unit_of_go]
      cases env.units[uid]? <;> simp
    · simp only [base_unit_of_go]
      cases hu : env.units[k]? with
      | none => rfl
      | some un =>
        by_cases hz : v = 0
        · simp [hz]
        · by_cases hpos : 0 < v
          · simp [hz, hpos, ih h]
          · simp [hz, hpos, ih h]

theorem base_unit_of_spec_char (env : Environment) (hWF : env.WFUnits)
    (l : ExpMap) (hl : ∀ p ∈ l, p.1 < env.units.length ∧ p.2 ≠ 0) :
    ∃ m, base_unit_of_spec env l = some m ∧ Norm m ∧
      ∀ c, lookup m c = sumContrib env l c := by
  induction l with
  | nil =>
    exact ⟨unitless, rfl, norm_unitless, by simp [sumContrib, unitless, lookup]⟩
  | cons p rest ih =>
    obtain ⟨uid, power⟩ := p
    have hreg : uid < env.units.length := (hl (uid, power) (by simp)).1
    have hpz : power ≠ 0 := (hl (uid, power) (by simp)).2
    obtain ⟨un, hun, hmem⟩ := getElem_some_of_lt env uid hreg
    have hbc : Norm un.base_class := hWF un hmem
    obtain ⟨m, hm, hnm, hlook⟩ := ih (fun p hp => hl p (by simp [hp]))
    have hg : Norm (gpowSpec un.base_class power) := norm_gpowSpec _ _ hbc
    refine ⟨multiply (gpowSpec un.base_class power) m, ?_, norm_mergeAdd _ _ hg hnm, ?_⟩
    · simp only [base_unit_of_spec, hun, if_neg hpz, hm, Option.map_some']
    · intro c
      rw [multiply, lookup_mergeAdd _ _ hg.1 hnm.1, lookup_gpowSpec _ _ hbc, hlook c]
      simp only [sumContrib, gval, hun]

theorem base_conversion_go_char (env : Environment) (l : ExpMap)
    (hl : ∀ p ∈ l, p.1 < env.units.length) :
    ∀ r, base_conversion_go env l r = some (r * conversion_product_spec env l) := by
  induction l with
  | nil => intro r; simp [base_conversion_go, conversion_product_spec]
  | cons p rest ih =>
    intro r
    obtain ⟨uid, power⟩ := p
    have hreg : uid < env.units.length := hl (uid, power) (by simp)
    obtain ⟨un, hun, _⟩ := getElem_some_of_lt env uid hreg
    simp only [base_conversion_go, hun]
    rw [ih (fun p hp => hl p (by simp [hp]))]
    simp only [conversion_product_spec, hun]
    rw [mul_assoc]

theorem base_conversion_ratio_of_char (env : Environment) (u : CompositeUnit)
    (hu : ∀ p ∈ u, p.1 < env.units.length) :
    base_conversion_ratio_of env u = some (conversion_product_spec env u) := by
  rw [base_conversion_ratio_of, base_conversion_go_char env u hu 1, one_mul]

theorem getElemClass_some_of_lt (env : Environment) (cid : Nat)
    (h : cid < env.unit_classes.length) :
    ∃ uc, env.unit_classes[cid]? = some uc ∧ uc ∈ env.unit_classes :=
  ⟨env.unit_classes[cid], List.getElem?_eq_getElem h, List.getElem_mem h⟩

theorem format_unit_go_some (env : Environment) (l : ExpMap)
    (hl : ∀ p ∈ l, p.1 < env.units.length ∧ p.2 ≠ 0) :
    ∀ num den, ∃ s, format_unit_go env l num den = some s := by
  induction l with
  | nil => intro num den; exact ⟨num ++ " / " ++ den, rfl⟩
  | cons p rest ih =>
    intro num den
    obtain ⟨uid, power⟩ := p
    have hreg : uid < env.units.length := (hl (uid, power) (by simp)).1
    have hpz : power ≠ 0 := (hl (uid, power) (by simp)).2
    obtain ⟨un, hun, _⟩ := getElem_some_of_lt env uid hreg
    have htl : ∀ p ∈ rest, p.1 < env.units.length ∧ p.2 ≠ 0 :=
      fun p hp => hl p (by simp [hp])
    by_cases hpos : 0 < power
    · simp only [format_unit_go, if_neg hpz, hun, if_pos hpos]
      exact ih htl _ _
    · simp only [format_unit_go, if_neg hpz, hun, if_neg hpos]
      exact ih htl _ _

theorem format_base_unit_go_some (env : Environment) (l : ExpMap)
    (hl : ∀ p ∈ l, p.1 < env.unit_classes.length ∧ p.2 ≠ 0) :
    ∀ num den, ∃ s, format_base_unit_go env l num den = some s := by
  induction l with
  | nil => intro num den; exact ⟨num ++ " / " ++ den, rfl⟩
  | cons p rest ih =>
    intro num den
    obtain ⟨cid, power⟩ := p
    have hreg : cid < env.unit_classes.length := (hl (cid, power) (by simp)).1
    have hpz : power ≠ 0 := (hl (cid, power) (by simp)).2
    obtain ⟨uc, huc, _⟩ := getElemClass_some_of_lt env cid hreg
    have htl : ∀ p ∈ rest, p.1 < env.unit_classes.length ∧ p.2 ≠ 0 :=
      fun p hp => hl p (by simp [hp])
    by_cases hpos : 0 < power
    · simp only [format_base_unit_go, if_neg hpz, huc, if_pos hpos]
      exact ih htl _ _
    · simp only [format_base_unit_go, if_neg hpz, huc, if_neg hpos]
      exact ih htl _ _

theorem format_unit_go_zero (env : Environment) (l : ExpMap) (uid : Nat)
    (h : (uid, (0 : Int)) ∈ l) :
    ∀ num den, format_unit_go env l num den = none := by
  induction l with
  | nil => simp at h
  | cons p rest ih =>
    intro num den
    obtain ⟨k, v⟩ := p
    rcases List.mem_cons.mp h with h | h
    · obtain ⟨rfl, rfl⟩ : uid = k ∧ (0 : Int) = v := Prod.mk.injEq .. ▸ h
      simp [format_unit_go]
    · simp only [format_unit_go]
      by_cases hz : v = 0
      · simp [hz]
      · rw [if_neg hz]
        cases env.units[k]? with
        | none => rfl
        | some un =>
          by_cases hpos : 0 < v
          · simp [hpos, ih h]
          · simp [hpos, ih h]

theorem format_base_unit_go_zero (env : Environment) (l : ExpMap) (cid : Nat)
    (h : (cid, (0 : Int)) ∈ l) :
    ∀ num den, format_base_unit_go env l num den = none := by
  induction l with
  | nil => simp at h
  | cons p rest ih =>
    intro num den
    obtain ⟨k, v⟩ := p
    rcases List.mem_cons.mp h with h | h
    · obtain ⟨rfl, rfl⟩ : cid = k ∧ (0 : Int) = v := Prod.mk.injEq .. ▸ h
      simp [format_base_unit_go]
    · simp only [format_base_unit_go]
      by_cases hz : v = 0
      · simp [hz]
      · rw [if_neg hz]
        cases env.unit_classes[k]? with
        | none => rfl
        | some uc =>
          by_cases hpos : 0 < v
          · simp [hpos, ih h]
          · simp [hpos, ih h]

theorem format_args_char (env : Environment) (indent : Nat) (args : List Formula) :
    format_args env indent args =
      (args.mapM (fun a => format_formula_detailed_impl env a (indent + 4))).map
        (fun ss => ss.foldr (fun s r => spaces (indent + 4) ++ s ++ ",\n" ++ r) "") := by
  induction args with
  | nil => rfl
  | cons a rest ih =>
    rw [List.mapM_cons]
    simp only [format_args]
    rw [ih]
    cases h1 : format_formula_detailed_impl env a (indent + 4) with
    | none => rfl
    | some s =>
      cases h2 : rest.mapM (fun a => format_formula_detailed_impl env a (indent + 4)) with
      | none => rfl
      | some ss => rfl

/-! ### Claim theorems -/

/-- C1: for every composite unit on which the two derived computations
return (i.e. do not fail fatally), `make_scalar v u p` returns a `Scalar`
whose `base_unit` is `base_unit_of u`, whose `base_value` is
`v * base_conversion_ratio_of u`, whose `display_unit` is exactly the
composite unit `u` passed in, and whose `precision` is `p`. -/
theorem c1_make_scalar (env : Environment) (v : ℚ) (u : CompositeUnit) (p : Nat)
    (bu : CompositeUnitClass) (r : ℚ)
    (h1 : base_unit_of env u = some bu)
    (h2 : base_conversion_ratio_of env u = some r) :
    make_scalar env v u p =
      some { base_value := v * r, base_unit := bu, display_unit := u, precision := p } := by
  simp [make_scalar, h1, h2, Scalar.new]

/-- Witness for C1 in the scenario-1 environment. -/
theorem c1_make_scalar_witness :
    make_scalar env0 5 [(0, 1)] 3 =
      some { base_value := 5 * 1, base_unit := [(0, 1)], display_unit := [(0, 1)],
             precision := 3 } :=
  c1_make_scalar env0 5 [(0, 1)] 3 [(0, 1)] 1 (by decide)
    (by rw [base_conversion_ratio_of_char env0 [(0, 1)] (by decide)]
        simp [conversion_product_spec, env0])

/-- C2: over registered units with nonzero powers, `base_unit_of` equals the
spec's fold (each component's `base_class` raised to the component's power by
repeated group multiplication/division, accumulated by group multiplication
from `unitless`), and `base_unit_of` fails fatally whenever some stored
component's power is exactly 0. -/
theorem c2_base_unit_of_fold :
    (∀ (env : Environment) (u : CompositeUnit), env.WFUnits →
      (∀ p ∈ u, p.1 < env.units.length ∧ p.2 ≠ 0) →
      base_unit_of env u = base_unit_of_spec env u) ∧
    (∀ (env : Environment) (u : CompositeUnit) (uid : Nat),
      (uid, (0 : Int)) ∈ u → base_unit_of env u = none) := by
  constructor
  · intro env u hWF hu
    obtain ⟨m1, hm1, hn1, hl1⟩ := base_unit_of_char env hWF u hu
    obtain ⟨m2, hm2, hn2, hl2⟩ := base_unit_of_spec_char env hWF u hu
    rw [hm1, hm2, lookup_ext m1 m2 hn1 hn2 (fun q => by rw [hl1 q, hl2 q])]
  · intro env u uid h
    exact base_unit_of_go_zero env u uid h unitless

/-- Witness for C2: a mixed-sign composite unit and a zero-power failure. -/
theorem c2_base_unit_of_fold_witness :
    base_unit_of envW [(0, 1), (1, -2)] = base_unit_of_spec envW [(0, 1), (1, -2)] ∧
    base_unit_of env0 [(0, 0)] = none :=
  ⟨c2_base_unit_of_fold.1 envW [(0, 1), (1, -2)] (by decide) (by decide),
   c2_base_unit_of_fold.2 env0 [(0, 0)] 0 (by decide)⟩

/-- C3: `base_unit_of` is a group homomorphism: on valid composite units over
registered units it maps `multiply u1 u2` to the product of the images, and it
maps the group inverse `divide unitless u` to `divide unitless (base_unit_of u)`. -/
theorem c3_base_unit_of_hom (env : Environment) (hWF : env.WFUnits)
    (u1 u2 : CompositeUnit) (h1 : Norm u1) (h2 : Norm u2)
    (hr1 : ∀ p ∈ u1, p.1 < env.units.length)
    (hr2 : ∀ p ∈ u2, p.1 < env.units.length) :
    (∃ b1 b2, base_unit_of env u1 = some b1 ∧ base_unit_of env u2 = some b2 ∧
      base_unit_of env (multiply u1 u2) = some (multiply b1 b2)) ∧
    (∃ b1, base_unit_of env u1 = some b1 ∧
      base_unit_of env (divide unitless u1) = some (divide unitless b1)) := by
  have hu1 : ∀ p ∈ u1, p.1 < env.units.length ∧ p.2 ≠ 0 :=
    fun p hp => ⟨hr1 p hp, h1.2 p hp⟩
  have hu2 : ∀ p ∈ u2, p.1 < env.units.length ∧ p.2 ≠ 0 :=
    fun p hp => ⟨hr2 p hp, h2.2 p hp⟩
  obtain ⟨b1, hb1, hn1, hl1⟩ := base_unit_of_char env hWF u1 hu1
  obtain ⟨b2, hb2, hn2, hl2⟩ := base_unit_of_char env hWF u2 hu2
  constructor
  · have hu12 : ∀ p ∈ multiply u1 u2, p.1 < env.units.length ∧ p.2 ≠ 0 := by
      intro p hp
      refine ⟨?_, zeroFree_mergeAdd u1 u2 h1.2 h2.2 p hp⟩
      rcases mem_mergeAdd hp with ⟨q, hq, hq1⟩ | ⟨q, hq, hq1⟩
      · rw [hq1]; exact hr1 q hq
      · rw [hq1]; exact hr2 q hq
    obtain ⟨b12, hb12, hn12, hl12⟩ := base_unit_of_char env hWF (multiply u1 u2) hu12
    refine ⟨b1, b2, hb1, hb2, ?_⟩
    rw [hb12]
    congr 1
    refine lookup_ext _ _ hn12 (norm_mergeAdd _ _ hn1 hn2) ?_
    intro q
    simp only [multiply] at hl12 ⊢
    rw [hl12 q, sumContrib_mergeAdd, lookup_mergeAdd _ _ hn1.1 hn2.1,
      hl1 q, hl2 q]
  · have hinv : divide unitless u1 = negMap u1 :=
      mergeAdd_unitless_left _ (norm_negMap _ h1)
    have huneg : ∀ p ∈ negMap u1, p.1 < env.units.length ∧ p.2 ≠ 0 := by
      intro p hp
      simp only [negMap, List.mem_map] at hp
      obtain ⟨q, hq, rfl⟩ := hp
      exact ⟨hr1 q hq, by simpa using h1.2 q hq⟩
    obtain ⟨bi, hbi, hni, hli⟩ := base_unit_of_char env hWF (negMap u1) huneg
    refine ⟨b1, hb1, ?_⟩
    rw [hinv, hbi]
    congr 1
    simp only [divide]
    rw [mergeAdd_unitless_left _ (norm_negMap _ hn1)]
    refine lookup_ext _ _ hni (norm_negMap _ hn1) ?_
    intro q
    rw [hli q, sumContrib_negMap, lookup_negMap, hl1 q]

/-- Witness for C3 with Meter and Second^-1 in the two-dimension environment. -/
theorem c3_base_unit_of_hom_witness :
    (∃ b1 b2, base_unit_of envW [(0, 1)] = some b1 ∧
      base_unit_of envW [(1, -1)] = some b2 ∧
      base_unit_of envW (multiply [(0, 1)] [(1, -1)]) = some (multiply b1 b2)) ∧
    (∃ b1, base_unit_of envW [(0, 1)] = some b1 ∧
      base_unit_of envW (divide unitless [(0, 1)]) = some (divide unitless b1)) :=
  c3_base_unit_of_hom envW (by decide) [(0, 1)] [(1, -1)] (by decide) (by decide)
    (by decide) (by decide)

/-- C5: the group laws claimed for valid exponent maps: `divide`ing a product
by one factor returns the other, and `multiply` by `unitless` is the
identity. -/
theorem c5_group_laws (A B : ExpMap) (hA : Norm A) (hB : Norm B) :
    divide (multiply A B) B = A ∧ multiply A unitless = A := by
  constructor
  · refine lookup_ext _ _ (norm_divide _ _ (norm_mergeAdd _ _ hA hB) hB) hA ?_
    intro q
    simp only [multiply]
    rw [lookup_divide _ _ (sortedKeys_mergeAdd _ _ hA.1) hB.1,
      lookup_mergeAdd _ _ hA.1 hB.1]
    ring
  · exact mergeAdd_nil_right A

/-- Witness for C5 on concrete valid maps. -/
theorem c5_group_laws_witness :
    divide (multiply [(0, 2), (2, -1)] [(0, 1), (1, 3)]) [(0, 1), (1, 3)] =
      [(0, 2), (2, -1)] ∧
    multiply [(0, 2), (2, -1)] unitless = [(0, 2), (2, -1)] :=
  c5_group_laws [(0, 2), (2, -1)] [(0, 1), (1, 3)] (by decide) (by decide)

/-- C6 counterexample: a composite unit with a zero-exponent component on
which `base_conversion_ratio_of` does not fail fatally: it returns the
product with the component contributing `base_ratio ^ 0 = 1`, refuting the
claim that every operation consuming a zero-exponent component fails. -/
theorem c6_counterexample :
    ((0, (0 : Int)) ∈ ([((0 : Nat), (0 : Int))] : ExpMap)) ∧
    base_conversion_ratio_of env0 [(0, 0)] = some 1 := by
  refine ⟨by decide, ?_⟩
  rw [base_conversion_ratio_of_char env0 [(0, 0)] (by decide)]
  simp [conversion_product_spec, env0]

/-- C6 (amended): `base_unit_of` and the two unit formatters fail fatally on
a composite containing a zero-exponent component, but
`base_conversion_ratio_of` does not: over registered units it returns a
value (the zero-exponent component contributes the factor
`base_ratio ^ 0 = 1`). -/
theorem c6_zero_exponent (env : Environment) (m : ExpMap) (uid : Nat)
    (hm : (uid, (0 : Int)) ∈ m) (hreg : ∀ p ∈ m, p.1 < env.units.length) :
    base_unit_of env m = none ∧ format_unit env m = none ∧
    format_base_unit env m = none ∧
    ∃ r, base_conversion_ratio_of env m = some r :=
  ⟨base_unit_of_go_zero env m uid hm unitless,
   format_unit_go_zero env m uid hm "" "",
   format_base_unit_go_zero env m uid hm "" "",
   ⟨conversion_product_spec env m, base_conversion_ratio_of_char env m hreg⟩⟩

/-- Witness for the amended C6. -/
theorem c6_zero_exponent_witness :
    base_unit_of env0 [(0, 0)] = none ∧ format_unit env0 [(0, 0)] = none ∧
    format_base_unit env0 [(0, 0)] = none ∧
    ∃ r, base_conversion_ratio_of env0 [(0, 0)] = some r :=
  c6_zero_exponent env0 [(0, 0)] 0 (by decide) (by decide)

/-- C9: a `PlainFunction` node formatted at indent `n` renders as the
function name, `"[\n"`, then for each argument in order `n + 4` spaces, the
argument formatted recursively at indent `n + 4`, and `",\n"`, and finally
`"]"` preceded by `n` spaces; `format_formula_detailed` is this at `n = 0`. -/
theorem c9_format_formula :
    (∀ (env : Environment) (fn : String) (args : List Formula) (n : Nat),
      format_formula_detailed_impl env (.plainFunction fn args) n =
        (args.mapM (fun a => format_formula_detailed_impl env a (n + 4))).map
          (fun ss =>
            fn ++ "[\n" ++
            ss.foldr (fun s r => spaces (n + 4) ++ s ++ ",\n" ++ r) "" ++
            spaces n ++ "]")) ∧
    (∀ (env : Environment) (f : Formula),
      format_formula_detailed env f = format_formula_detailed_impl env f 0) := by
  constructor
  · intro env fn args n
    simp only [format_formula_detailed_impl]
    rw [format_args_char, Option.map_map]
    rfl
  · intro env f
    rfl

/-- C10: on the empty composite unit, `base_unit_of` returns the unitless
class, `base_conversion_ratio_of` returns exactly 1, and `make_scalar`
produces a dimensionless scalar whose `base_value` is the input value;
none of the three fails. -/
theorem c10_empty_unit (env : Environment) (v : ℚ) (p : Nat) :
    base_unit_of env unitless = some unitless ∧
    base_conversion_ratio_of env unitless = some 1 ∧
    make_scalar env v unitless p =
      some { base_value := v, base_unit := unitless, display_unit := unitless,
             precision := p } := by
  refine ⟨rfl, rfl, ?_⟩
  simp [make_scalar, base_unit_of, base_unit_of_go, base_conversion_ratio_of,
    base_conversion_go, unitless, Scalar.new]

/-- C4: `base_conversion_ratio_of` returns the product, starting from 1, of
each component unit's `base_ratio` raised to the component's integer power;
consequently for a registered unit `u` with positive ratio,
`make_scalar 1 u^1 p` has `base_value` equal to that ratio and dividing that
`base_value` by `base_conversion_ratio_of u^1` gives exactly 1. -/
theorem c4_conversion_ratio :
    (∀ (env : Environment) (u : CompositeUnit),
      (∀ p ∈ u, p.1 < env.units.length) →
      base_conversion_ratio_of env u = some (conversion_product_spec env u)) ∧
    (∀ (env : Environment) (uid : Nat) (un : Unit) (p : Nat),
      env.units[uid]? = some un → 0 < un.base_ratio →
      ∃ s, make_scalar env 1 [(uid, 1)] p = some s ∧
        s.base_value = un.base_ratio ∧
        ∀ r, base_conversion_ratio_of env [(uid, 1)] = some r →
          s.base_value / r = 1) := by
  constructor
  · intro env u hu
    exact base_conversion_ratio_of_char env u hu
  · intro env uid un p hun hpos
    have hbu : base_unit_of env [(uid, 1)] =
        some (mulPow unitless un.base_class 1) := by
      simp [base_unit_of, base_unit_of_go, hun]
    have hr : base_conversion_ratio_of env [(uid, 1)] = some un.base_ratio := by
      simp [base_conversion_ratio_of, base_conversion_go, hun]
    refine ⟨Scalar.new un.base_ratio (mulPow unitless un.base_class 1) [(uid, 1)] p,
      ?_, ?_, ?_⟩
    · simp [make_scalar, hbu, hr, Scalar.new]
    · simp [Scalar.new]
    · intro r hrr
      rw [hr] at hrr
      obtain rfl : un.base_ratio = r := Option.some.inj hrr
      simp only [Scalar.new]
      exact div_self (ne_of_gt hpos)

/-- Witness for C4 in the scenario-1 environment. -/
theorem c4_conversion_ratio_witness :
    base_conversion_ratio_of env0 [(0, 1)] =
      some (conversion_product_spec env0 [(0, 1)]) ∧
    ∃ s, make_scalar env0 1 [(0, 1)] 4 = some s ∧
      s.base_value =
        ({ name := "Meter", base_class := [(0, 1)], base_ratio := 1 } : Unit).base_ratio ∧
      ∀ r, base_conversion_ratio_of env0 [(0, 1)] = some r →
        s.base_value / r = 1 :=
  ⟨c4_conversion_ratio.1 env0 [(0, 1)] (by decide),
   c4_conversion_ratio.2 env0 0
     { name := "Meter", base_class := [(0, 1)], base_ratio := 1 } 4 (by rfl) one_pos⟩

/-- C7: scenario 1 end to end: `make_scalar 5 Meter^1 3` followed by
`format_scalar_detailed` yields exactly
`"5.00e0 Meter^1 /  (5.00e0 Length^1 / )"`, including the trailing `"/ "`
emitted when a unit has no denominator components. -/
theorem c7_scenario1 :
    (make_scalar env0 5 [(0, 1)] 3).bind (format_scalar_detailed env0) =
      some "5.00e0 Meter^1 /  (5.00e0 Length^1 / )" := by
  have hr : base_conversion_ratio_of env0 [(0, 1)] = some 1 := by
    rw [base_conversion_ratio_of_char env0 [(0, 1)] (by decide)]
    simp [conversion_product_spec, env0]
  have hms : make_scalar env0 5 [(0, 1)] 3 = some s0 := by
    have hbu : base_unit_of env0 [(0, 1)] = some [(0, 1)] := by decide
    simp [make_scalar, hbu, hr, Scalar.new, s0]
  rw [hms]
  show format_scalar_detailed env0 s0 = _
  have hu : format_unit env0 [(0, 1)] = some "Meter^1 / " := by decide
  have hb : format_base_unit env0 [(0, 1)] = some "Length^1 / " := by decide
  have hfs : fmtSci 5 2 = "5.00e0" := by
    simp only [fmtSci]
    rw [if_neg (by norm_num), if_neg (by norm_num)]
    norm_num
    decide
  have hv : (5 : ℚ) / 1 = 5 := div_one 5
  simp only [format_scalar_detailed, s0, hr, Option.some_bind, hv, hfs, hu, hb]
  norm_num
  decide

/-- C8: over registered, zero-free display and base units,
`format_scalar_detailed` fails fatally exactly when the precision is 0, and
for positive precision it renders the display value `base_value / ratio` and
the base value, both in scientific notation with `precision - 1` fractional
digits, around the two unit strings. -/
theorem c8_format_scalar (env : Environment) (s : Scalar)
    (hdu : ∀ p ∈ s.display_unit, p.1 < env.units.length ∧ p.2 ≠ 0)
    (hbu : ∀ p ∈ s.base_unit, p.1 < env.unit_classes.length ∧ p.2 ≠ 0) :
    (format_scalar_detailed env s = none ↔ s.precision = 0) ∧
    (1 ≤ s.precision → ∃ r us bs,
      base_conversion_ratio_of env s.display_unit = some r ∧
      format_unit env s.display_unit = some us ∧
      format_base_unit env s.base_unit = some bs ∧
      format_scalar_detailed env s =
        some (fmtSci (s.base_value / r) (s.precision - 1) ++ " " ++ us ++ " (" ++
          fmtSci s.base_value (s.precision - 1) ++ " " ++ bs ++ ")")) := by
  have hr : base_conversion_ratio_of env s.display_unit =
      some (conversion_product_spec env s.display_unit) :=
    base_conversion_ratio_of_char env _ (fun p hp => (hdu p hp).1)
  obtain ⟨us, hus⟩ := format_unit_go_some env s.display_unit hdu "" ""
  obtain ⟨bs, hbs⟩ := format_base_unit_go_some env s.base_unit hbu "" ""
  have hus2 : format_unit env s.display_unit = some us := hus
  have hbs2 : format_base_unit env s.base_unit = some bs := hbs
  have hsome : s.precision ≠ 0 → format_scalar_detailed env s =
      some (fmtSci (s.base_value / conversion_product_spec env s.display_unit)
          (s.precision - 1) ++ " " ++ us ++ " (" ++
        fmtSci s.base_value (s.precision - 1) ++ " " ++ bs ++ ")") := by
    intro hp
    simp [format_scalar_detailed, hr, hp, hus2, hbs2]
  constructor
  · constructor
    · intro hnone
      by_contra hp
      rw [hsome hp] at hnone
      exact Option.noConfusion hnone
    · intro hp
      simp [format_scalar_detailed, hr, hp]
  · intro hp
    exact ⟨conversion_product_spec env s.display_unit, us, bs, hr, hus2, hbs2,
      hsome (by omega)⟩

/-- Witness for C8 on the scenario-1 scalar. -/
theorem c8_format_scalar_witness :
    (format_scalar_detailed env0 s0 = none ↔ s0.precision = 0) ∧
    (1 ≤ s0.precision → ∃ r us bs,
      base_conversion_ratio_of env0 s0.display_unit = some r ∧
      format_unit env0 s0.display_unit = some us ∧
      format_base_unit env0 s0.base_unit = some bs ∧
      format_scalar_detailed env0 s0 =
        some (fmtSci (s0.base_value / r) (s0.precision - 1) ++ " " ++ us ++ " (" ++
          fmtSci s0.base_value (s0.precision - 1) ++ " " ++ bs ++ ")")) :=
  c8_format_scalar env0 s0 (by decide) (by decide)

end Ackulator
